import Mathlib

/-!
Verification of the link-validation tool (`validate.go`): a shallow Lean
embedding of its hyperlink extraction, filtering, probing and report
aggregation logic, with theorems about the properties the tool is
specified to have.
-/

namespace ValidateLinks

/-! ### Pattern matching model

`validate.go` matches strings with a fixed set of Go regular expressions
(`initializeMatchers`, lines 128-139).  Every pattern used is a sequence of
literal characters and unescaped dots; in Go's regexp a bare `.` matches any
single character except a newline, and `MatchString` looks for a match
anywhere in the string (unanchored).  We embed such a pattern as a list of
pattern characters. -/

inductive PatChar where
  | lit (c : Char)
  | any
deriving DecidableEq

/-- One pattern character against one input character: a literal matches
itself, `.` matches anything except a newline. -/
def patCharMatches : PatChar → Char → Bool
  | .lit c, d => c == d
  | .any, d => d != '\n'

/-- Compile a Go regex consisting only of literals and bare dots: each `.`
becomes a wildcard. -/
def patOfString (s : String) : List PatChar :=
  s.data.map (fun c => if c = '.' then PatChar.any else PatChar.lit c)

/-- Match a pattern against a prefix of the input, returning the remaining
input on success (anchored at the start). -/
def matchPat : List PatChar → List Char → Option (List Char)
  | [], cs => some cs
  | _ :: _, [] => none
  | p :: ps, c :: cs => if patCharMatches p c then matchPat ps cs else none

/-- Unanchored search: does the pattern match starting at some position?
This is Go's `Regexp.MatchString` for dot/literal patterns. -/
def containsPat (ps : List PatChar) : List Char → Bool
  | [] => (matchPat ps []).isSome
  | c :: rest => (matchPat ps (c :: rest)).isSome || containsPat ps rest

/-! ### The concrete patterns of `initializeMatchers` (lines 128-139) -/

/-- `matchers[".docx"]`: the internal manifest path pattern for word
documents. -/
def docxPatSource : String := "word/_rels/document.xml.rels"

/-- Source text of `matchers["hyperlink"]` up to the capture group: the
relationship-record pattern whose capture group holds the target URL. -/
def hyperlinkTypeSource : String :=
  "Type=\"http://schemas.openxmlformats.org/officeDocument/2006/relationships/hyperlink\" Target=\""

/-- `matchers["microsoft"]`: the vendor boilerplate pattern
`http://office.microsoft.com` (its dots are regex wildcards). -/
def microsoftPatSource : String := "http://office.microsoft.com"

/-- `matchers["mailto"]` is `mailto:.*`; for a boolean `MatchString` the
trailing `.*` (which may match the empty string) is irrelevant, so the
pattern is equivalent to unanchored containment of `mailto:`. -/
def mailtoPatSource : String := "mailto:"

def docxPat : List PatChar := patOfString docxPatSource

def hyperlinkPat : List PatChar := patOfString hyperlinkTypeSource

def microsoftPat : List PatChar := patOfString microsoftPatSource

def mailtoPat : List PatChar := patOfString mailtoPatSource

/-- `matchers[".pptx"]` is `ppt/slides/_rels/.*.xml.rels`: a literal head,
then `.*` (any run of non-newline characters), then a dot/literal tail.
`pptxGapMatches cs` holds when `.*` followed by the tail pattern matches a
prefix-region of `cs`. -/
def pptxGapMatches : List Char → Bool
  | [] => (matchPat (patOfString ".xml.rels") []).isSome
  | c :: rest =>
    (matchPat (patOfString ".xml.rels") (c :: rest)).isSome ||
      (c != '\n' && pptxGapMatches rest)

/-- Anchored match of the whole `.pptx` pattern at the start of `cs`. -/
def pptxMatchesAt (cs : List Char) : Bool :=
  match matchPat (patOfString "ppt/slides/_rels/") cs with
  | some rest => pptxGapMatches rest
  | none => false

/-- `MatchString` of `matchers[".pptx"]`: unanchored search. -/
def pptxMatches : List Char → Bool
  | [] => pptxMatchesAt []
  | c :: rest => pptxMatchesAt (c :: rest) || pptxMatches rest

/-! ### Data model (`Document`, `Hyperlink`, `Report`, lines 89-101, 356-363)

The Go struct field `Type` is a reserved word in Lean; it is rendered as
`DocType`.  All other field names are kept. -/

structure Hyperlink where
  Url : String
  IsWorking : Bool
deriving DecidableEq

structure Document where
  Path : String
  DocType : String
  IsValid : Bool
  Hyperlinks : List Hyperlink
deriving DecidableEq

structure Report where
  ResultOfValidation : Bool
  Directories : List String
  Documents : List Document
  InvalidHyperlinks : List Hyperlink
  Date : String
deriving DecidableEq

/-! ### Link filter (`filterHyperlinks`, lines 311-333)

The Go loop accumulates into a fresh slice with `append`; the three boolean
tests are exactly the source's `isMicrosoft`, `isEmpty`, `isMail`. -/

def filterLoop : List Hyperlink → List Hyperlink → List Hyperlink
  | [], filteredLinks => filteredLinks
  | link :: rest, filteredLinks =>
    let isMicrosoft := containsPat microsoftPat link.Url.data
    let isEmpty := link.Url == ""
    let isMail := containsPat mailtoPat link.Url.data
    if isMicrosoft == false && isEmpty == false && isMail == false then
      filterLoop rest (filteredLinks ++ [link])
    else
      filterLoop rest filteredLinks

def filterHyperlinks (hyperlinks : List Hyperlink) : List Hyperlink :=
  filterLoop hyperlinks []

/-- The per-link keep condition of the filter loop, as a standalone
predicate (the expression is literally the loop's `if` condition). -/
def keepLink (link : Hyperlink) : Bool :=
  containsPat microsoftPat link.Url.data == false && (link.Url == "") == false && containsPat mailtoPat link.Url.data == false

/-! ### Specification-side reading of the patterns

To state claims about the filter independently of the executable matcher,
a pattern match is characterized as an explicit decomposition of the
character list. -/

/-- A pattern matches a character list exactly (same length, position by
position). -/
def PatMatches : List PatChar → List Char → Prop
  | [], [] => True
  | .lit c :: ps, d :: ds => c = d ∧ PatMatches ps ds
  | .any :: ps, d :: ds => d ≠ '\n' ∧ PatMatches ps ds
  | _ :: _, [] => False
  | [], _ :: _ => False

/-- Substring containment of the `mailto:` pattern is literal substring
containment of `mailto:` (the pattern has no dots). -/
def MailtoSub (u : String) : Prop :=
  ∃ pre post : List Char, u.data = pre ++ ("mailto:").data ++ post

/-- The vendor pattern matched somewhere inside the URL, each `.` of the
pattern standing for one arbitrary non-newline character. -/
def VendorWild (u : String) : Prop :=
  ∃ pre mid post : List Char,
    u.data = pre ++ mid ++ post ∧ PatMatches microsoftPat mid

/-! ### Hyperlink extraction (`extractHyperlinksFromContent`, lines 290-309)

`matchers["hyperlink"].FindAllStringSubmatch(fileContent, -1)` finds every
non-overlapping leftmost match of the relationship-record pattern; the
capture group `(?P<url>.+?)` is lazy, so it captures the shortest non-empty
run of non-newline characters followed by a closing quote.  `findAllTargets`
reproduces this: scan left to right, at each position try the fixed prefix
pattern and then the lazy capture, and on success continue after the
consumed match. -/

/-- The lazy capture `(?P<url>.+?)"`: the shortest non-empty newline-free
prefix that is immediately followed by `"`; returns the capture and the
input after the closing quote. -/
def captureLazy : List Char → Option (List Char × List Char)
  | [] => none
  | [_] => none
  | c :: d :: rest2 =>
    if c = '\n' then none
    else if d = '"' then some ([c], rest2)
    else (captureLazy (d :: rest2)).map (fun p => (c :: p.1, p.2))

/-- The find-all scan, with explicit fuel; `findAllTargets` supplies
`cs.length`, which always suffices. -/
def findAllTargetsFuel : Nat → List Char → List String
  | 0, _ => []
  | fuel + 1, cs =>
    match cs with
    | [] => []
    | c :: rest =>
      match matchPat hyperlinkPat (c :: rest) with
      | some r =>
        match captureLazy r with
        | some (s, r2) => String.mk s :: findAllTargetsFuel fuel r2
        | none => findAllTargetsFuel fuel rest
      | none => findAllTargetsFuel fuel rest

/-- All capture-group values of the hyperlink-record pattern, in document
order, as found by `FindAllStringSubmatch`. -/
def findAllTargets (cs : List Char) : List String :=
  findAllTargetsFuel cs.length cs

/-! ### Extraction from file content (lines 290-309)

`extractHyperlinksFromContent` pairs each captured URL with
`IsWorking := false` and then applies the link filter before returning. -/

def extractTargetsRaw (fileContent : String) : List Hyperlink :=
  (findAllTargets fileContent.data).map (fun url => { Url := url, IsWorking := false })

def extractHyperlinksFromContent (fileContent : String) : List Hyperlink :=
  filterHyperlinks (extractTargetsRaw fileContent)

/-- A manifest in general position: each entry is a filler (everything that
is not a hyperlink relationship record: XML declaration, root element,
relationship records of other relationship types, whitespace) followed by
one hyperlink relationship record (the fixed pattern text, the target, the
closing quote), with a trailing filler after the last record. -/
def mkManifest : List (String × String) → String → List Char
  | [], trailing => trailing.data
  | (sep, url) :: rest, trailing =>
      sep.data ++ (hyperlinkTypeSource.data ++ (url.data ++ '"' :: mkManifest rest trailing))

/-- No match of the hyperlink-record pattern starts strictly inside this
separator text.  A match window starting at position `i < |s|` has length
`hyperlinkPat.length` and the next record's fixed prefix (the pattern's own
source text) follows the separator, so the window lies entirely inside
`s ++ hyperlinkTypeSource.data`; checking it there is therefore exact.
Non-hyperlink relationship records satisfy this: their `Type="…"` attribute
continues with a different relationship-type URI, so the full pattern never
matches at them. -/
def hyperFreeBefore : List Char → Bool
  | [] => true
  | c :: rest =>
    !(matchPat hyperlinkPat ((c :: rest) ++ hyperlinkTypeSource.data)).isSome &&
      hyperFreeBefore rest

/-- Well-formedness of a manifest in general position: no hyperlink-record
pattern match starts inside a separator (so the designated records are
exactly the hyperlink relationship records of the content), the trailing
filler contains no match at all, and every target is non-empty, quote-free
and newline-free (as URLs in an XML attribute are). -/
def ManifestWellFormed (entries : List (String × String)) (trailing : String) : Prop :=
  (∀ p ∈ entries,
    hyperFreeBefore (Prod.fst p).data = true ∧ (Prod.snd p).data ≠ [] ∧
      '"' ∉ (Prod.snd p).data ∧ '\n' ∉ (Prod.snd p).data) ∧
  containsPat hyperlinkPat trailing.data = false

/-! ### Reading the manifest entry from the container
(`getLinkFileContent`, lines 249-288)

The zip archive is modelled as a list of entries; an entry whose content is
`none` is one whose `Open()` fails.  Opening the archive itself may fail
(`zip.OpenReader` returns an error), modelled by `Except`.  The function's
observable outcome is modelled by `Exec`: either a value together with the
log lines written, or a runtime panic (nil-pointer dereference) together
with the log lines written before the crash.

The Go code, on a failed `zip.OpenReader`, logs and then goes on to use the
nil `documentContainer` (the deferred `Close` and the `range` over
`documentContainer.File` both dereference nil), which panics.  Likewise, on
a failed `file.Open()` it logs and then calls `io.Copy` with a nil reader,
which panics. -/

structure ZipEntry where
  name : String
  content : Option String
deriving DecidableEq

inductive Exec (α : Type) where
  | ok (value : α) (logs : List String)
  | panic (logs : List String)
deriving DecidableEq

/-- `matchers[document.Type].MatchString(file.Name)`: the matcher map holds
patterns only for `.docx` and `.pptx`; any other key yields Go's nil
`*Regexp`, on which `MatchString` panics (modelled as `none`). -/
def entryMatches (docType : String) (name : String) : Option Bool :=
  if docType = ".docx" then some (containsPat docxPat name.data)
  else if docType = ".pptx" then some (pptxMatches name.data)
  else none

def readEntriesLoop (docType : String) : List ZipEntry → String → List String → Exec String
  | [], buffer, logs => .ok buffer logs
  | entry :: rest, buffer, logs =>
    match entryMatches docType entry.name with
    | none => .panic logs
    | some false => readEntriesLoop docType rest buffer logs
    | some true =>
      match entry.content with
      | none => .panic (logs ++ ["ERROR: coult not read file content"])
      | some c => readEntriesLoop docType rest (buffer ++ c) logs

def getLinkFileContent (docType : String) (openResult : Except String (List ZipEntry)) :
    Exec String :=
  match openResult with
  | .error _ => .panic ["ERROR: could not open the file"]
  | .ok entries => readEntriesLoop docType entries "" []

/-! ### The reachability prober (`Hyperlink.validate`, lines 103-122)

The single `goreq.Request{...}.Do()` call is an external network fetch; its
outcome is taken from the head of a trace of fetch outcomes, so that one
invocation consumes exactly one outcome.  `err != nil` (any transport-level
failure) sets `IsWorking` to `false`; otherwise it is set to `true`. -/

inductive FetchOutcome where
  | response (status : Nat)
  | transportError (message : String)
deriving DecidableEq

/-- The `goreq.Request` literal built by `validate`: the URL and the
hard-coded `Timeout: 15000 * time.Millisecond` (in nanoseconds). -/
structure GoreqRequest where
  Uri : String
  TimeoutNanos : Nat
deriving DecidableEq

def timeMillisecondNanos : Nat := 1000000

def mkProbeRequest (url : String) : GoreqRequest :=
  { Uri := url, TimeoutNanos := 15000 * timeMillisecondNanos }

def Hyperlink.validate (link : Hyperlink) (fetches : List FetchOutcome) :
    Option (Hyperlink × List FetchOutcome) :=
  match fetches with
  | [] => none
  | outcome :: rest =>
    match outcome with
    | .transportError _ => some ({ link with IsWorking := false }, rest)
    | .response _ => some ({ link with IsWorking := true }, rest)

/-! ### The directory walk callback (`walkDirectory`, lines 184-214)

`filepath.Walk` invokes the anonymous callback with a path, a `FileInfo`
(nil when the entry could not be stat-ed) and an error (non-nil on a
traversal failure).  The callback never looks at `err`; it immediately
calls `fileInfo.Name()`, which panics when `fileInfo` is nil.  A matching
extension sends a fresh `Document` to the channel; the callback always
returns nil, no log line is ever written. -/

structure FileInfo where
  name : String
deriving DecidableEq

/-- Go's `filepath.Ext`: the suffix starting at the final dot of the final
path element; empty if there is none. -/
def extAux : List Char → List Char → String
  | [], _ => ""
  | c :: restRev, acc =>
    if c = '/' then ""
    else if c = '.' then String.mk (c :: acc)
    else extAux restRev (c :: acc)

def filepathExt (path : String) : String :=
  extAux path.data.reverse []

/-- The walk callback: the result value is the `Document` sent to the file
channel (if any) together with the error value returned to `filepath.Walk`
(always nil). -/
def walkFn (path : String) (fileInfo : Option FileInfo) (_err : Option String) :
    Exec (Option Document × Option String) :=
  match fileInfo with
  | none => .panic []
  | some fi =>
    let fileName := fi.name
    let extension := filepathExt fileName
    if extension = ".docx" || extension = ".pptx" then
      .ok (some { Path := path, DocType := filepathExt fileName,
                  IsValid := false, Hyperlinks := [] }, none) []
    else
      .ok (none, none) []

/-! ### Aggregation in `main` (lines 47-73) and the report (lines 356-363)

The double loop initializes each document's `IsValid` to true, clears it
(and the run-wide `resultOfValidation`) on each non-working link, and then
builds the `Report` literal — which never assigns `InvalidHyperlinks`, so
that field keeps Go's zero value (a nil slice). -/

def docLoop : List Hyperlink → Bool → Bool → Bool × Bool
  | [], isValid, overall => (isValid, overall)
  | link :: rest, isValid, overall =>
    if link.IsWorking = false then docLoop rest false false
    else docLoop rest isValid overall

def mainLoop : List Document → Bool → List Document × Bool
  | [], overall => ([], overall)
  | doc :: rest, overall =>
    let p := docLoop doc.Hyperlinks true overall
    let q := mainLoop rest p.2
    ({ doc with IsValid := p.1 } :: q.1, q.2)

/-- Lines 47-65: the validation loop plus the redundant
`if resultOfValidation != false { resultOfValidation = true }`. -/
def runValidation (documents : List Document) : List Document × Bool :=
  let p := mainLoop documents true
  (p.1, if p.2 != false then true else p.2)

def mkReport (directories : List String) (documents : List Document) (date : String) :
    Report :=
  let p := runValidation documents
  { ResultOfValidation := p.2, Directories := directories, Documents := p.1,
    InvalidHyperlinks := [], Date := date }

/-! ### Concrete fixtures used by the claim theorems -/

/-- A document with one broken link, used to exhibit the gap between the
overall flag and the (never populated) broken-link list. -/
def c1BrokenDoc : Document :=
  { Path := "a.docx", DocType := ".docx", IsValid := false,
    Hyperlinks := [{ Url := "http://dead.invalid/x", IsWorking := false }] }

def c2InputDoc : Document :=
  { Path := "empty.docx", DocType := ".docx", IsValid := false, Hyperlinks := [] }

def c2OutputDoc : Document :=
  { Path := "empty.docx", DocType := ".docx", IsValid := true, Hyperlinks := [] }

/-- Character-list test that the first list opens the second one. -/
def startsWithChars : List Char → List Char → Bool
  | [], _ => true
  | _ :: _, [] => false
  | c :: cr, d :: dr => c == d && startsWithChars cr dr

/-- The drop condition exactly as claim C6 words it: the empty string, a
URL containing the vendor boilerplate pattern, or a URL whose scheme is
`mailto:` (the URL opens with `mailto:`). -/
def c6ClaimDrop (u : String) : Bool :=
  u == "" || containsPat microsoftPat u.data || startsWithChars ("mailto:").data u.data

/-- A realistic `.rels` manifest for the C9 witness: the XML declaration
(with `UTF-8`), the root element, a non-hyperlink `styles` relationship
record before the first hyperlink record and a non-hyperlink `settings`
relationship record between the two hyperlink records. -/
def c9Entries : List (String × String) :=
  [("<?xml version=\"1.0\" encoding=\"UTF-8\" standalone=\"yes\"?><Relationships xmlns=\"http://schemas.openxmlformats.org/package/2006/relationships\"><Relationship Id=\"rId1\" Type=\"http://schemas.openxmlformats.org/officeDocument/2006/relationships/styles\" Target=\"styles.xml\"/><Relationship Id=\"rId2\" ",
    "http://www.example.org/seminar"),
   (" TargetMode=\"External\"/><Relationship Id=\"rId3\" Type=\"http://schemas.openxmlformats.org/officeDocument/2006/relationships/settings\" Target=\"settings.xml\"/><Relationship Id=\"rId4\" ",
    "http://www.uhbs.ch/studie")]

/-- The text after the last hyperlink record's closing quote. -/
def c9Trailing : String := " TargetMode=\"External\"/></Relationships>"

def c10Link : Hyperlink :=
  { Url := "http://example.org/page?contact=mailto:team@example.org",
    IsWorking := false }

/-! ## Lemmas and claim theorems -/

example : containsPat (patOfString "mailto:") "x mailto:a".data = true := by decide
example : containsPat (patOfString "mailto:") "x mailtoa".data = false := by decide
example : containsPat (patOfString "a.c") "xabc".data = true := by decide
example : containsPat (patOfString "a.c") "xa\nc".data = false := by decide

example : pptxMatches "ppt/slides/_rels/slide1.xml.rels".data = true := by decide
example : pptxMatches "ppt/slides/image1.png".data = false := by decide
example : containsPat docxPat "word/_rels/document.xml.rels".data = true := by decide

lemma filterLoop_eq (links acc : List Hyperlink) :
    filterLoop links acc = acc ++ links.filter keepLink := by
  induction links generalizing acc with
  | nil => simp [filterLoop]
  | cons link rest ih =>
    have hcond : filterLoop (link :: rest) acc =
        if keepLink link then filterLoop rest (acc ++ [link]) else filterLoop rest acc := rfl
    rw [hcond]
    by_cases h : keepLink link = true
    · simp [h, List.filter_cons, ih]
    · simp only [Bool.not_eq_true] at h
      simp [h, List.filter_cons, ih]

/-- The filter is `List.filter keepLink`: order-preserving, occurrence by
occurrence. -/
lemma filterHyperlinks_eq (links : List Hyperlink) :
    filterHyperlinks links = links.filter keepLink := by
  simpa using filterLoop_eq links []

lemma matchPat_iff (ps : List PatChar) (cs r : List Char) :
    matchPat ps cs = some r ↔ ∃ mid, cs = mid ++ r ∧ PatMatches ps mid := by
  induction ps generalizing cs with
  | nil =>
    simp only [matchPat, Option.some.injEq]
    constructor
    · rintro rfl
      exact ⟨[], rfl, trivial⟩
    · rintro ⟨mid, hcs, hm⟩
      cases mid with
      | nil => simpa using hcs
      | cons d ds => exact absurd hm (by simp [PatMatches])
  | cons p ps ih =>
    cases cs with
    | nil =>
      simp only [matchPat]
      constructor
      · intro h
        exact absurd h (by simp)
      · rintro ⟨mid, hcs, hm⟩
        cases mid with
        | nil => cases p <;> exact absurd hm (by simp [PatMatches])
        | cons d ds => exact absurd hcs (by simp)
    | cons c cs =>
      simp only [matchPat]
      by_cases hpc : patCharMatches p c = true
      · rw [if_pos hpc, ih]
        constructor
        · rintro ⟨mid, hcs, hm⟩
          refine ⟨c :: mid, by simp [hcs], ?_⟩
          cases p with
          | lit a =>
            have : a = c := by simpa [patCharMatches] using hpc
            exact (by simpa [PatMatches, this] using hm)
          | any =>
            have : c ≠ '\n' := by simpa [patCharMatches] using hpc
            exact (by simpa [PatMatches, this] using hm)
        · rintro ⟨mid, hcs, hm⟩
          cases mid with
          | nil => cases p <;> exact absurd hm (by simp [PatMatches])
          | cons d ds =>
            have hd : c = d := by simpa using congrArg (List.head? ·) hcs
            have htl : cs = ds ++ r := by simpa using congrArg (List.tail ·) hcs
            subst hd
            refine ⟨ds, htl, ?_⟩
            cases p with
            | lit a => exact hm.2
            | any => exact hm.2
      · rw [if_neg hpc]
        constructor
        · intro h
          exact absurd h (by simp)
        · rintro ⟨mid, hcs, hm⟩
          cases mid with
          | nil => cases p <;> exact absurd hm (by simp [PatMatches])
          | cons d ds =>
            have hd : c = d := by simpa using congrArg (List.head? ·) hcs
            subst hd
            cases p with
            | lit a =>
              exact absurd (by simpa [patCharMatches] using hm.1) hpc
            | any =>
              exact absurd (by simpa [patCharMatches] using hm.1) hpc

lemma containsPat_iff (ps : List PatChar) (cs : List Char) :
    containsPat ps cs = true ↔
      ∃ pre mid post, cs = pre ++ mid ++ post ∧ PatMatches ps mid := by
  induction cs with
  | nil =>
    simp only [containsPat, Option.isSome_iff_exists]
    constructor
    · rintro ⟨r, hr⟩
      obtain ⟨mid, hmid, hm⟩ := (matchPat_iff ps [] r).mp hr
      exact ⟨[], mid, r, by simpa using hmid, hm⟩
    · rintro ⟨pre, mid, post, hcs, hm⟩
      obtain ⟨h1, hpost⟩ := List.append_eq_nil.mp hcs.symm
      obtain ⟨hpre, hmid⟩ := List.append_eq_nil.mp h1
      subst hpre hmid hpost
      exact ⟨[], (matchPat_iff ps [] []).mpr ⟨[], rfl, hm⟩⟩
  | cons c rest ih =>
    simp only [containsPat, Bool.or_eq_true, Option.isSome_iff_exists, ih]
    constructor
    · rintro (⟨r, hr⟩ | ⟨pre, mid, post, hcs, hm⟩)
      · obtain ⟨mid, hmid, hm⟩ := (matchPat_iff ps (c :: rest) r).mp hr
        exact ⟨[], mid, r, by simpa using hmid, hm⟩
      · exact ⟨c :: pre, mid, post, by simp [hcs], hm⟩
    · rintro ⟨pre, mid, post, hcs, hm⟩
      cases pre with
      | nil =>
        left
        exact ⟨post, (matchPat_iff ps (c :: rest) post).mpr
          ⟨mid, by simpa using hcs, hm⟩⟩
      | cons x xs =>
        right
        have hd : c = x := by simpa using congrArg (List.head? ·) hcs
        have htl : rest = xs ++ mid ++ post := by
          simpa using congrArg (List.tail ·) hcs
        exact ⟨xs, mid, post, htl, hm⟩

/-- A literal pattern (no dots) matches exactly the literal characters. -/
lemma patMatches_literal (l : List Char) (hl : '.' ∉ l) (mid : List Char) :
    PatMatches (l.map (fun c => if c = '.' then PatChar.any else PatChar.lit c)) mid ↔ mid = l := by
  induction l generalizing mid with
  | nil => cases mid <;> simp [PatMatches]
  | cons c cl ih =>
    have hc : c ≠ '.' := fun h => hl (h ▸ List.mem_cons_self c cl)
    have hcl : '.' ∉ cl := fun h => hl (List.mem_cons_of_mem c h)
    cases mid with
    | nil => simp [PatMatches, hc]
    | cons d dl =>
      simp only [List.map_cons, if_neg hc, PatMatches, ih hcl]
      constructor
      · rintro ⟨rfl, rfl⟩; rfl
      · intro h
        injection h with h1 h2
        exact ⟨h1.symm, h2⟩

lemma mailto_containsPat_iff (u : String) :
    containsPat mailtoPat u.data = true ↔ MailtoSub u := by
  rw [containsPat_iff]
  constructor
  · rintro ⟨pre, mid, post, hu, hm⟩
    have : mid = ("mailto:").data := by
      have := (patMatches_literal ("mailto:").data (by decide) mid)
      exact this.mp (by simpa [mailtoPat, mailtoPatSource, patOfString] using hm)
    exact ⟨pre, post, by simpa [this] using hu⟩
  · rintro ⟨pre, post, hu⟩
    refine ⟨pre, ("mailto:").data, post, hu, ?_⟩
    have := (patMatches_literal ("mailto:").data (by decide) ("mailto:").data).mpr rfl
    simpa [mailtoPat, mailtoPatSource, patOfString] using this

lemma microsoft_containsPat_iff (u : String) :
    containsPat microsoftPat u.data = true ↔ VendorWild u := by
  rw [containsPat_iff]
  exact Iff.rfl

lemma matchPat_length {ps : List PatChar} {cs r : List Char}
    (h : matchPat ps cs = some r) : r.length + ps.length = cs.length := by
  induction ps generalizing cs with
  | nil =>
    simp only [matchPat, Option.some.injEq] at h
    simp [h]
  | cons p ps ih =>
    cases cs with
    | nil => exact absurd h (by simp [matchPat])
    | cons c cs =>
      simp only [matchPat] at h
      by_cases hpc : patCharMatches p c = true
      · rw [if_pos hpc] at h
        have := ih h
        simp [List.length_cons, ← this]
        omega
      · rw [if_neg hpc] at h
        exact absurd h (by simp)

lemma captureLazy_length {cs s r : List Char}
    (h : captureLazy cs = some (s, r)) : r.length + s.length + 1 = cs.length := by
  induction cs generalizing s r with
  | nil => exact absurd h (by simp [captureLazy])
  | cons c rest ih =>
    cases rest with
    | nil => exact absurd h (by simp [captureLazy])
    | cons d rest2 =>
      simp only [captureLazy] at h
      by_cases hc : c = '\n'
      · rw [if_pos hc] at h
        exact absurd h (by simp)
      · rw [if_neg hc] at h
        by_cases hd : d = '"'
        · rw [if_pos hd] at h
          simp only [Option.some.injEq, Prod.mk.injEq] at h
          obtain ⟨hs, hr⟩ := h
          subst hs hr
          simp
        · rw [if_neg hd] at h
          simp only [Option.map_eq_some'] at h
          obtain ⟨⟨s', r'⟩, hrec, hp⟩ := h
          simp only [Prod.mk.injEq] at hp
          obtain ⟨hs, hr⟩ := hp
          subst hs hr
          have := ih hrec
          simp only [List.length_cons] at this ⊢
          omega

lemma hyperlinkPat_length : hyperlinkPat.length = 93 := by decide

lemma findAllTargetsFuel_congr :
    ∀ n cs m, cs.length ≤ n → cs.length ≤ m →
      findAllTargetsFuel n cs = findAllTargetsFuel m cs := by
  intro n
  induction n with
  | zero =>
    intro cs m hn _
    have : cs = [] := List.length_eq_zero.mp (Nat.le_zero.mp hn)
    subst this
    cases m <;> simp [findAllTargetsFuel]
  | succ n ih =>
    intro cs m hn hm
    cases cs with
    | nil => cases m <;> simp [findAllTargetsFuel]
    | cons c rest =>
      have hm1 : 1 ≤ m := le_trans (by simp) hm
      obtain ⟨m', rfl⟩ : ∃ m', m = m' + 1 := ⟨m - 1, by omega⟩
      have hrestn : rest.length ≤ n := by simpa using hn
      have hrestm : rest.length ≤ m' := by simpa using hm
      cases hmp : matchPat hyperlinkPat (c :: rest) with
      | none =>
        simp only [findAllTargetsFuel, hmp]
        exact ih rest m' hrestn hrestm
      | some r =>
        cases hcap : captureLazy r with
        | none =>
          simp only [findAllTargetsFuel, hmp, hcap]
          exact ih rest m' hrestn hrestm
        | some p =>
          obtain ⟨s, r2⟩ := p
          have hr : r.length + 93 = rest.length + 1 := by
            simpa [hyperlinkPat_length] using matchPat_length hmp
          have hr2 : r2.length + s.length + 1 = r.length := captureLazy_length hcap
          have hr2n : r2.length ≤ n := by omega
          have hr2m : r2.length ≤ m' := by omega
          simp only [findAllTargetsFuel, hmp, hcap]
          simp [ih r2 m' hr2n hr2m]

/-- Whether the pattern matches a list depends only on the list's first
`ps.length` characters. -/
lemma matchPat_isSome_congr (ps : List PatChar) (xs ys : List Char)
    (h : xs.take ps.length = ys.take ps.length) :
    (matchPat ps xs).isSome = (matchPat ps ys).isSome := by
  induction ps generalizing xs ys with
  | nil => simp [matchPat]
  | cons p ps ih =>
    cases xs with
    | nil =>
      cases ys with
      | nil => rfl
      | cons y ys' =>
        exfalso
        simp [List.length_cons] at h
    | cons x xs' =>
      cases ys with
      | nil =>
        exfalso
        simp [List.length_cons] at h
      | cons y ys' =>
        simp only [List.length_cons, List.take_succ_cons] at h
        injection h with h1 h2
        subst h1
        simp only [matchPat]
        by_cases hpc : patCharMatches p x = true
        · rw [if_pos hpc, if_pos hpc]
          exact ih xs' ys' h2
        · rw [if_neg hpc, if_neg hpc]

/-- Unfolding: a position where the pattern does not match is skipped. -/
lemma findAllTargets_skip_nomatch {c : Char} {rest : List Char}
    (h : matchPat hyperlinkPat (c :: rest) = none) :
    findAllTargets (c :: rest) = findAllTargets rest := by
  simp [findAllTargets, findAllTargetsFuel, h]

/-- A separator inside which no pattern match starts (when followed by the
next record's fixed prefix) is skipped whole. -/
lemma findAllTargets_skipSep (s : List Char) (hs : hyperFreeBefore s = true)
    (tail : List Char) :
    findAllTargets (s ++ (hyperlinkTypeSource.data ++ tail)) =
      findAllTargets (hyperlinkTypeSource.data ++ tail) := by
  induction s with
  | nil => simp
  | cons c s' ih =>
    simp only [hyperFreeBefore, Bool.and_eq_true] at hs
    obtain ⟨h0, hrest⟩ := hs
    have h0' : (matchPat hyperlinkPat ((c :: s') ++ hyperlinkTypeSource.data)).isSome = false := by
      simpa using h0
    have htake : (((c :: s') ++ hyperlinkTypeSource.data) ++ tail).take hyperlinkPat.length
        = ((c :: s') ++ hyperlinkTypeSource.data).take hyperlinkPat.length := by
      rw [List.take_append_eq_append_take]
      have hz : hyperlinkPat.length - ((c :: s') ++ hyperlinkTypeSource.data).length = 0 := by
        have hsrc : hyperlinkTypeSource.data.length = 93 := by decide
        simp [hyperlinkPat_length, List.length_append, hsrc]
      rw [hz]
      simp
    have hsome : (matchPat hyperlinkPat (((c :: s') ++ hyperlinkTypeSource.data) ++ tail)).isSome
        = false := by
      rw [matchPat_isSome_congr hyperlinkPat _ _ htake]
      exact h0'
    have hnone : matchPat hyperlinkPat (c :: (s' ++ (hyperlinkTypeSource.data ++ tail))) = none := by
      have hassoc : ((c :: s') ++ hyperlinkTypeSource.data) ++ tail
          = c :: (s' ++ (hyperlinkTypeSource.data ++ tail)) := by
        simp [List.append_assoc]
      rw [hassoc] at hsome
      cases hm : matchPat hyperlinkPat (c :: (s' ++ (hyperlinkTypeSource.data ++ tail)))
      · rfl
      · rw [hm] at hsome
        exact absurd hsome (by simp)
    rw [List.cons_append, findAllTargets_skip_nomatch hnone, ih hrest]

/-- A tail in which the pattern matches nowhere contributes no targets. -/
lemma findAllTargets_of_no_match (t : List Char)
    (h : containsPat hyperlinkPat t = false) :
    findAllTargets t = [] := by
  induction t with
  | nil => rfl
  | cons c rest ih =>
    simp only [containsPat] at h
    cases hm : matchPat hyperlinkPat (c :: rest) with
    | some r =>
      rw [hm] at h
      simp at h
    | none =>
      rw [hm] at h
      simp only [Option.isSome_none, Bool.false_or] at h
      rw [findAllTargets_skip_nomatch hm, ih h]

lemma matchPat_patOfString (l r : List Char) (hl : '\n' ∉ l) :
    matchPat (l.map (fun c => if c = '.' then PatChar.any else PatChar.lit c)) (l ++ r) = some r := by
  induction l with
  | nil => simp [matchPat]
  | cons c cl ih =>
    have hc : c ≠ '\n' := fun h => hl (h ▸ List.mem_cons_self c cl)
    have hcl : '\n' ∉ cl := fun h => hl (List.mem_cons_of_mem c h)
    by_cases hdot : c = '.'
    · simp only [List.map_cons, if_pos hdot, List.cons_append, matchPat, patCharMatches]
      rw [if_pos (by simpa using hc)]
      exact ih hcl
    · simp only [List.map_cons, if_neg hdot, List.cons_append, matchPat, patCharMatches]
      rw [if_pos (by simp)]
      exact ih hcl

lemma captureLazy_exact (u r : List Char) (hne : u ≠ [])
    (hq : '"' ∉ u) (hn : '\n' ∉ u) :
    captureLazy (u ++ '"' :: r) = some (u, r) := by
  induction u with
  | nil => exact absurd rfl hne
  | cons c cl ih =>
    have hc : c ≠ '\n' := fun h => hn (h ▸ List.mem_cons_self c cl)
    have hcl : '"' ∉ cl := fun h => hq (List.mem_cons_of_mem c h)
    have hnl : '\n' ∉ cl := fun h => hn (List.mem_cons_of_mem c h)
    cases cl with
    | nil =>
      show captureLazy (c :: '"' :: r) = some ([c], r)
      simp only [captureLazy]
      rw [if_neg hc]
      simp
    | cons d dl =>
      have hd : d ≠ '"' := fun h => hq (by simp [h])
      show captureLazy (c :: ((d :: dl) ++ '"' :: r)) = some (c :: d :: dl, r)
      have hrec : captureLazy ((d :: dl) ++ '"' :: r) = some (d :: dl, r) :=
        ih (by simp) hcl hnl
      simp only [List.cons_append, List.append_eq, captureLazy] at hrec ⊢
      rw [if_neg hc, if_neg hd, hrec]
      rfl

/-- Unfolding: a full record (pattern, then a non-empty quote-free
newline-free target, then the closing quote) produces its target and the
scan resumes after the closing quote. -/
lemma findAllTargets_record (u r : List Char) (hne : u ≠ [])
    (hq : '"' ∉ u) (hn : '\n' ∉ u) :
    findAllTargets (hyperlinkTypeSource.data ++ (u ++ '"' :: r)) =
      String.mk u :: findAllTargets r := by
  have hmp : matchPat hyperlinkPat (hyperlinkTypeSource.data ++ (u ++ '"' :: r)) =
      some (u ++ '"' :: r) := by
    simpa [hyperlinkPat, patOfString] using
      matchPat_patOfString hyperlinkTypeSource.data (u ++ '"' :: r) (by decide)
  have hcap : captureLazy (u ++ '"' :: r) = some (u, r) := captureLazy_exact u r hne hq hn
  rcases hds : hyperlinkTypeSource.data with _ | ⟨c, tl⟩
  · exact absurd hds (by decide)
  · rw [hds] at hmp
    have htl : tl.length = 92 := by
      have h93 : hyperlinkTypeSource.data.length = 93 := by decide
      rw [hds] at h93
      simpa using h93
    show findAllTargets (c :: (tl ++ (u ++ '"' :: r))) = String.mk u :: findAllTargets r
    rw [List.cons_append] at hmp
    simp only [findAllTargets, List.length_cons, findAllTargetsFuel, List.cons_append, hmp, hcap]
    refine congrArg (String.mk u :: ·) ?_
    refine findAllTargetsFuel_congr _ r r.length ?_ le_rfl
    simp only [List.length_append, List.length_cons, htl]
    omega

lemma findAllTargets_manifest (entries : List (String × String)) (trailing : String)
    (h : ManifestWellFormed entries trailing) :
    findAllTargets (mkManifest entries trailing) = entries.map (fun p => Prod.snd p) := by
  obtain ⟨hrec, htrail⟩ := h
  induction entries with
  | nil => exact findAllTargets_of_no_match trailing.data htrail
  | cons p rest ih =>
    obtain ⟨sep, url⟩ := p
    obtain ⟨hsep, hne, hq, hn⟩ := hrec ⟨sep, url⟩ (List.mem_cons_self _ _)
    show findAllTargets (sep.data ++ _) = _
    rw [findAllTargets_skipSep sep.data hsep, findAllTargets_record url.data _ hne hq hn]
    have hrest := ih (fun q hq' => hrec q (List.mem_cons_of_mem _ hq'))
    simp [hrest]

example : filepathExt "report.docx" = ".docx" := by decide
example : filepathExt "a/b.c/file" = "" := by decide
example : filepathExt "archive.tar.gz" = ".gz" := by decide

lemma docLoop_eq (links : List Hyperlink) (v o : Bool) :
    docLoop links v o =
      (v && links.all (fun l => l.IsWorking), o && links.all (fun l => l.IsWorking)) := by
  induction links generalizing v o with
  | nil => simp [docLoop]
  | cons link rest ih =>
    by_cases h : link.IsWorking = false
    · simp [docLoop, h, ih]
    · have h' : link.IsWorking = true := by
        cases hw : link.IsWorking
        · exact absurd hw h
        · rfl
      simp [docLoop, h, h', ih]

lemma mainLoop_eq (documents : List Document) (o : Bool) :
    mainLoop documents o =
      (documents.map (fun d => { d with IsValid := d.Hyperlinks.all (fun l => l.IsWorking) }),
        o && documents.all (fun d => d.Hyperlinks.all (fun l => l.IsWorking))) := by
  induction documents generalizing o with
  | nil => simp [mainLoop]
  | cons doc rest ih =>
    simp [mainLoop, docLoop_eq, ih, Bool.and_assoc]

lemma runValidation_eq (documents : List Document) :
    runValidation documents =
      (documents.map (fun d => { d with IsValid := d.Hyperlinks.all (fun l => l.IsWorking) }),
        documents.all (fun d => d.Hyperlinks.all (fun l => l.IsWorking))) := by
  simp only [runValidation, mainLoop_eq, Bool.true_and]
  cases documents.all (fun d => d.Hyperlinks.all (fun l => l.IsWorking)) <;> simp

/-- C1 counterexample: for a run over one document with one broken link the
Report's overall boolean is `false`, yet `InvalidHyperlinks` is empty, so
"the boolean is true iff the denormalized broken-link list is empty" fails
(and the broken link does not appear in that list). -/
theorem report_brokenlist_counterexample :
    (mkReport ["."] [c1BrokenDoc] "2026-10-11").ResultOfValidation = false ∧
    (mkReport ["."] [c1BrokenDoc] "2026-10-11").InvalidHyperlinks = [] ∧
    ¬ (((mkReport ["."] [c1BrokenDoc] "2026-10-11").ResultOfValidation = true) ↔
        (mkReport ["."] [c1BrokenDoc] "2026-10-11").InvalidHyperlinks = []) := by
  refine ⟨by decide, rfl, ?_⟩
  intro h
  have := h.mpr rfl
  exact absurd this (by decide)

/-- C1 (amended): the Report's overall validity boolean is true iff no
Document in the Report's document list has a broken Link; the denormalized
broken-link list `InvalidHyperlinks` is never populated — it is empty on
every run, whether or not broken links exist. -/
theorem report_validity_amended (dirs : List String) (documents : List Document)
    (date : String) :
    ((mkReport dirs documents date).ResultOfValidation = true ↔
      ∀ d ∈ (mkReport dirs documents date).Documents, d.IsValid = true) ∧
    ((mkReport dirs documents date).ResultOfValidation = true ↔
      ∀ d ∈ (mkReport dirs documents date).Documents,
        ∀ l ∈ d.Hyperlinks, l.IsWorking = true) ∧
    (mkReport dirs documents date).InvalidHyperlinks = [] := by
  refine ⟨?_, ?_, rfl⟩
  · simp only [mkReport, runValidation_eq]
    simp [List.all_eq_true, List.mem_map]
  · simp only [mkReport, runValidation_eq]
    simp [List.all_eq_true, List.mem_map]

/-- C2: for every Document in the final Report, `IsValid` is true iff every
Link in the Document's `Hyperlinks` has `IsWorking` true; in particular a
Document with zero Links is valid. -/
theorem document_validity_iff (dirs : List String) (documents : List Document)
    (date : String) (d : Document)
    (hd : d ∈ (mkReport dirs documents date).Documents) :
    (d.IsValid = true ↔ ∀ l ∈ d.Hyperlinks, l.IsWorking = true) ∧
    (d.Hyperlinks = [] → d.IsValid = true) := by
  simp only [mkReport, runValidation_eq, List.mem_map] at hd
  obtain ⟨d0, _, rfl⟩ := hd
  constructor
  · simp [List.all_eq_true]
  · intro h
    simp only at h
    simp [h]

/-- C2 witness: a zero-link document is marked valid in the final report. -/
theorem document_validity_iff_witness :
    (c2OutputDoc.IsValid = true ↔ ∀ l ∈ c2OutputDoc.Hyperlinks, l.IsWorking = true) ∧
    (c2OutputDoc.Hyperlinks = [] → c2OutputDoc.IsValid = true) :=
  document_validity_iff ["."] [c2InputDoc] "2026-10-11" c2OutputDoc (by decide)

/-- C8: the link filter is idempotent — filtering an already filtered
sequence changes nothing. -/
theorem filter_idempotent (links : List Hyperlink) :
    filterHyperlinks (filterHyperlinks links) = filterHyperlinks links := by
  simp [filterHyperlinks_eq, List.filter_filter]

/-- C3: the code intends to recover from a malformed archive (it logs and
falls through), but it then dereferences the nil archive handle, so both
failure modes end in a panic that kills the whole run instead of treating
the document as having zero links: a corrupt zip panics right after the
"could not open" log line, and a matching manifest entry whose `Open()`
fails panics right after the "coult not read" log line. -/
theorem malformed_archive_panics :
    getLinkFileContent ".docx" (Except.error "zip: not a valid zip file") =
      Exec.panic ["ERROR: could not open the file"] ∧
    getLinkFileContent ".docx"
        (Except.ok [{ name := "word/_rels/document.xml.rels", content := none }]) =
      Exec.panic ["ERROR: coult not read file content"] := by
  constructor
  · rfl
  · show readEntriesLoop ".docx" [{ name := "word/_rels/document.xml.rels", content := none }] "" [] = _
    have hm : entryMatches ".docx" "word/_rels/document.xml.rels" = some true := by decide
    simp [readEntriesLoop, hm]

/-- C4 counterexample: a walk-callback invocation for an entry that could
not be stat-ed (nil `FileInfo`, non-nil error) panics — crashing the whole
scan — and even an errored invocation that does carry a `FileInfo` writes
no log line, contradicting "the entry is logged and skipped". -/
theorem walk_error_counterexample :
    walkFn "./locked/report.docx" none (some "lstat ./locked/report.docx: permission denied") =
      Exec.panic [] ∧
    walkFn "./locked" (some { name := "locked" }) (some "open ./locked: permission denied") =
      Exec.ok (none, none) [] := by
  exact ⟨rfl, rfl⟩

/-- C4 (amended): the walk callback ignores its error argument entirely: an
errored entry that still carries a `FileInfo` is processed exactly as if no
error had occurred — no log line is written, nil is returned and the scan
continues — while an errored entry with a nil `FileInfo` makes the callback
dereference nil and crash the scan. -/
theorem walk_error_ignored (path : String) (fi : FileInfo) (err : Option String) :
    walkFn path (some fi) err = walkFn path (some fi) none ∧
    (∃ sent, walkFn path (some fi) err = Exec.ok (sent, none) []) ∧
    walkFn path none err = Exec.panic [] := by
  refine ⟨rfl, ?_, rfl⟩
  by_cases h : (filepathExt fi.name = ".docx" || filepathExt fi.name = ".pptx") = true
  · refine ⟨some ⟨path, filepathExt fi.name, false, []⟩, ?_⟩
    simp [walkFn, h]
  · refine ⟨none, ?_⟩
    simp [walkFn, h]

/-- C5: one `validate` call consumes exactly one fetch outcome from the
trace (no retries, the rest of the trace is untouched), always assigns the
binary `IsWorking` flag, and classifies the link as broken exactly when the
transport-level fetch returned an error. -/
theorem probe_single_attempt (link : Hyperlink) (outcome : FetchOutcome)
    (rest : List FetchOutcome) :
    ∃ result : Hyperlink,
      Hyperlink.validate link (outcome :: rest) = some (result, rest) ∧
      result.Url = link.Url ∧
      (result.IsWorking = false ↔ ∃ e, outcome = FetchOutcome.transportError e) := by
  cases outcome with
  | response status =>
    exact ⟨{ link with IsWorking := true }, rfl, rfl, by simp [Hyperlink.validate]⟩
  | transportError message =>
    exact ⟨{ link with IsWorking := false }, rfl, rfl, by simp [Hyperlink.validate]⟩

/-- The filter's keep condition is false exactly on the empty URL, a URL
the vendor wildcard pattern matches inside, or a URL containing `mailto:`
anywhere. -/
lemma keepLink_false_iff (l : Hyperlink) :
    keepLink l = false ↔ (l.Url = "" ∨ VendorWild l.Url ∨ MailtoSub l.Url) := by
  have hkt : keepLink l = true ↔
      (containsPat microsoftPat l.Url.data = false ∧ ¬ l.Url = "" ∧
        containsPat mailtoPat l.Url.data = false) := by
    simp [keepLink, Bool.and_eq_true, and_assoc]
  constructor
  · intro hfalse
    by_contra hcon
    push_neg at hcon
    obtain ⟨hne, hnv, hnm⟩ := hcon
    have ha : containsPat microsoftPat l.Url.data = false := by
      cases hx : containsPat microsoftPat l.Url.data
      · rfl
      · exact absurd ((microsoft_containsPat_iff l.Url).mp hx) hnv
    have hb : containsPat mailtoPat l.Url.data = false := by
      cases hx : containsPat mailtoPat l.Url.data
      · rfl
      · exact absurd ((mailto_containsPat_iff l.Url).mp hx) hnm
    have htrue : keepLink l = true := hkt.mpr ⟨ha, hne, hb⟩
    rw [hfalse] at htrue
    exact absurd htrue (by simp)
  · intro hdrop
    cases hk : keepLink l
    · rfl
    · obtain ⟨ha, hne, hb⟩ := hkt.mp hk
      rcases hdrop with he | hv | hm
      · exact absurd he hne
      · rw [(microsoft_containsPat_iff l.Url).mpr hv] at ha
        exact absurd ha (by simp)
      · rw [(mailto_containsPat_iff l.Url).mpr hm] at hb
        exact absurd hb (by simp)

/-- C6 counterexample: an `http` URL that merely carries `mailto:` in its
query string is not dropped by the claim's predicate (its scheme is not
`mailto:`), yet the filter removes it. -/
theorem filter_scheme_counterexample :
    c6ClaimDrop "http://example.org/faq?contact=mailto:info@example.org" = false ∧
    filterHyperlinks
        [{ Url := "http://example.org/faq?contact=mailto:info@example.org",
           IsWorking := false }] = [] := by
  exact ⟨by decide, by decide⟩

/-- C6 (amended): the filter drops exactly the entries whose URL is empty,
or inside which the vendor-boilerplate pattern matches (each `.` matching
any single character), or which contain the substring `mailto:` anywhere —
not only as the scheme; survivors keep their relative order and are not
deduplicated (the filter is `List.filter` of a per-occurrence predicate). -/
theorem filter_characterization (links : List Hyperlink) :
    filterHyperlinks links = links.filter keepLink ∧
    (∀ l : Hyperlink,
      keepLink l = false ↔ (l.Url = "" ∨ VendorWild l.Url ∨ MailtoSub l.Url)) :=
  ⟨filterHyperlinks_eq links, keepLink_false_iff⟩

/-- C7 counterexample: the probe request built for a URL carries the
hard-coded timeout `15000 * time.Millisecond` — 15 seconds, not a
5-second default. -/
theorem probe_timeout_counterexample :
    (mkProbeRequest "http://example.org").TimeoutNanos = 15000 * timeMillisecondNanos ∧
    (mkProbeRequest "http://example.org").TimeoutNanos ≠ 5000 * timeMillisecondNanos := by
  exact ⟨rfl, by decide⟩

/-- C7 (amended): the prober's timeout is a fixed constant — every request
is built with `15000 * time.Millisecond` (15 s); no configuration option
exists in the code. -/
theorem probe_timeout_fixed (url : String) :
    (mkProbeRequest url).TimeoutNanos = 15000 * timeMillisecondNanos ∧
    (mkProbeRequest url).TimeoutNanos = 15000000000 := by
  exact ⟨rfl, rfl⟩

lemma readEntriesLoop_no_match (docType : String) (es : List ZipEntry)
    (h : ∀ e ∈ es, entryMatches docType e.name = some false)
    (buffer : String) (logs : List String) :
    readEntriesLoop docType es buffer logs = Exec.ok buffer logs := by
  induction es with
  | nil => rfl
  | cons e rest ih =>
    have he : entryMatches docType e.name = some false := h e (List.mem_cons_self _ _)
    simp only [readEntriesLoop, he]
    exact ih (fun e' he' => h e' (List.mem_cons_of_mem _ he'))

/-- C9: (a) for every document content that splits into the general
manifest form — arbitrary separator text (XML declaration, root element,
relationship records of *other* relationship types, whitespace: anything
inside which no hyperlink-record pattern match starts) alternating with
hyperlink relationship records whose targets are non-empty, quote-free and
newline-free — the extraction stage returns exactly the target attribute
of every hyperlink relationship record, in document order: non-hyperlink
records are skipped, hyperlink records are all captured; (b) when no
archive entry matches the kind's manifest path pattern, the content read
is empty and extraction returns the empty sequence — no error, no log, no
panic. -/
theorem extractor_targets_in_order :
    (∀ (entries : List (String × String)) (trailing : String),
      ManifestWellFormed entries trailing →
      extractTargetsRaw (String.mk (mkManifest entries trailing)) =
        entries.map (fun p => { Url := Prod.snd p, IsWorking := false })) ∧
    (∀ (docType : String) (zipEntries : List ZipEntry),
      (∀ e ∈ zipEntries, entryMatches docType e.name = some false) →
      getLinkFileContent docType (Except.ok zipEntries) = Exec.ok "" [] ∧
      extractHyperlinksFromContent "" = []) := by
  constructor
  · intro entries trailing h
    show (findAllTargets (mkManifest entries trailing)).map _ = _
    rw [findAllTargets_manifest entries trailing h, List.map_map]
    rfl
  · intro docType zipEntries h
    exact ⟨readEntriesLoop_no_match docType zipEntries h "" [], rfl⟩

set_option maxRecDepth 100000 in
set_option maxHeartbeats 1000000 in
/-- C9 witness: a realistic word-document manifest — XML declaration with
`UTF-8`, a non-hyperlink `styles` record, a hyperlink record, a
non-hyperlink `settings` record, a second hyperlink record, closing tags —
yields exactly the two hyperlink targets in document order (the
non-hyperlink relationship records are skipped); and a container whose
only entry is not a manifest yields empty content and an empty link
list. -/
theorem extractor_targets_in_order_witness :
    extractTargetsRaw (String.mk (mkManifest c9Entries c9Trailing)) =
      c9Entries.map (fun p => { Url := Prod.snd p, IsWorking := false }) ∧
    getLinkFileContent ".docx"
        (Except.ok [{ name := "word/media/image1.png", content := some "junk" }]) =
      Exec.ok "" [] ∧
    extractHyperlinksFromContent "" = [] := by
  refine ⟨extractor_targets_in_order.1 c9Entries c9Trailing ⟨by decide, by decide⟩, ?_, ?_⟩
  · exact (extractor_targets_in_order.2 ".docx"
      [{ name := "word/media/image1.png", content := some "junk" }] (by decide)).1
  · exact (extractor_targets_in_order.2 ".docx" [] (by simp)).2

/-- C10: the vendor and mailto exclusions are unanchored matches over the
whole URL: any link whose URL contains a match of the vendor pattern (each
`.` standing for one arbitrary character) or contains `mailto:` anywhere —
not only as its scheme — never survives the filter and never appears among
the links extracted (and hence probed) for any file content. -/
theorem unanchored_exclusions (l : Hyperlink)
    (h : VendorWild l.Url ∨ MailtoSub l.Url) :
    (∀ links, l ∉ filterHyperlinks links) ∧
    (∀ content, l ∉ extractHyperlinksFromContent content) := by
  have hkeep : keepLink l = false :=
    (keepLink_false_iff l).mpr (Or.inr h)
  have hnotin : ∀ links, l ∉ filterHyperlinks links := by
    intro links hmem
    rw [filterHyperlinks_eq] at hmem
    have hk := List.of_mem_filter hmem
    rw [hkeep] at hk
    exact absurd hk (by simp)
  exact ⟨hnotin, fun content => hnotin _⟩

/-- C10 witness: an `http` URL whose query string contains `mailto:` is
excluded both from the filter output and from the extracted link set. -/
theorem unanchored_exclusions_witness :
    c10Link ∉ filterHyperlinks [c10Link] ∧
    c10Link ∉ extractHyperlinksFromContent "" := by
  have h := unanchored_exclusions c10Link
    (Or.inr ⟨("http://example.org/page?contact=").data,
      ("team@example.org").data, by decide⟩)
  exact ⟨h.1 [c10Link], h.2 ""⟩

end ValidateLinks
